import Mathlib

/-!
A shallow embedding of the Brainfuck interpreter in `bf.cpp` and proofs of
the specification's claims about it.

Modelling conventions:
* `size_t` values (the data counter and the program counter) are natural
  numbers; increment and decrement wrap at `2 ^ 64`, written as explicit
  conditionals (equal to mod-`2 ^ 64` arithmetic on values below `2 ^ 64`).
* `uint8_t` cells are natural numbers reduced modulo `256` at every write.
* The tape (`field` in the source) is modelled as a total function
  `Nat → Nat`; out-of-bounds access is undefined behavior by design and is
  out of scope, so the fixed 0x2000 size is not enforced.
* Byte input and output are modelled by an input list consumed by the `,`
  instruction and an output list appended to by the `.` instruction.
* `std::vector::back()`/`pop_back()` on an empty vector is undefined
  behavior in C++; the builders return `Except BuildUB` and signal
  `BuildUB.backOnEmpty` exactly where the source would perform that call.
* A fetch that the source would crash on (dereferencing a null
  `unique_ptr`, or `std::map::at` on a missing key) is modelled as `none`,
  which aborts the run.
-/

namespace BF

/-- Modulus of `uint8_t` cell arithmetic. -/
def CELL_MOD : Nat := 256

/-- Modulus of `size_t` arithmetic (the counters in `BrainfuckState`). -/
def SIZE_MOD : Nat := 2 ^ 64

/-- `BrainfuckState<size_t, size_t, uint8_t*>`: the data counter, the
program counter and the tape, plus the modelled input/output streams of the
injected `StdInputter`/`StdOutputter`. -/
structure BrainfuckState where
  data_counter : Nat
  program_counter : Nat
  field : Nat → Nat
  inputStream : List Nat
  outputStream : List Nat

/-- `size_t` increment: `n + 1` wrapping to 0 at `2 ^ 64`. -/
def sizeTSucc (n : Nat) : Nat := if n + 1 = SIZE_MOD then 0 else n + 1

/-- `size_t` decrement: `n - 1` wrapping to `2 ^ 64 - 1` below zero. -/
def sizeTPred (n : Nat) : Nat := if n = 0 then SIZE_MOD - 1 else n - 1

/-- Pointwise update of the tape, modelling `state.field[i] = v`. -/
def writeCell (f : Nat → Nat) (i v : Nat) : Nat → Nat :=
  fun j => if j = i then v else f j

/-- The eight instruction variants.  The six parameterless ones correspond
to the flyweight singletons `m_inc`, `m_dec`, `m_next`, `m_prev`, `m_in`,
`m_out`; the two jump variants carry the resolved target `m_to`. -/
inductive Instr where
  | incData : Instr
  | decData : Instr
  | nextData : Instr
  | prevData : Instr
  | inData : Instr
  | outData : Instr
  | jumpZero (target : Nat) : Instr
  | jumpNonzero (target : Nat) : Instr
deriving DecidableEq

/-- `StdInputter::in`: `std::getchar` returns the next byte, or `EOF`
(−1) at end of input, which truncates to `0xff` when stored in the
`uint8_t` cell. -/
def getchar (input : List Nat) : Nat × List Nat :=
  match input with
  | [] => (255, [])
  | b :: rest => (b % CELL_MOD, rest)

/-- `Instruction::execute` for each of the eight concrete subclasses. -/
def Instr.execute : Instr → BrainfuckState → BrainfuckState
  | .incData, s =>
    { s with field := writeCell s.field s.data_counter ((s.field s.data_counter + 1) % CELL_MOD) }
  | .decData, s =>
    { s with field := writeCell s.field s.data_counter ((s.field s.data_counter + (CELL_MOD - 1)) % CELL_MOD) }
  | .nextData, s => { s with data_counter := sizeTSucc s.data_counter }
  | .prevData, s => { s with data_counter := sizeTPred s.data_counter }
  | .inData, s =>
    { s with field := writeCell s.field s.data_counter (getchar s.inputStream).1,
             inputStream := (getchar s.inputStream).2 }
  | .outData, s => { s with outputStream := s.outputStream ++ [s.field s.data_counter] }
  | .jumpZero t, s =>
    if s.field s.data_counter = 0 then { s with program_counter := t } else s
  | .jumpNonzero t, s =>
    if s.field s.data_counter = 0 then s else { s with program_counter := t }

/-- The unconditional `state.program_counter++` of `BrainfuckInterpreter::step`. -/
def incrementPC (s : BrainfuckState) : BrainfuckState :=
  { s with program_counter := sizeTSucc s.program_counter }

/-- `BrainfuckInterpreter::step`: fetch `m_code[state.program_counter]`,
execute it, then increment the program counter.  A failed fetch (the
source would dereference null or throw from `std::map::at`) yields `none`. -/
def step (fetch : Nat → Option Instr) (s : BrainfuckState) : Option BrainfuckState :=
  (fetch s.program_counter).map (fun ins => incrementPC (ins.execute s))

/-- `BrainfuckInterpreter::interpret`: the dispatch loop, with explicit
fuel since the source loop need not terminate.  `none` means either fuel
ran out or a step failed. -/
def interpret (fetch : Nat → Option Instr) (size : Nat) : Nat → BrainfuckState → Option BrainfuckState
  | 0, _ => none
  | fuel + 1, s =>
    if s.program_counter < size then (step fetch s).bind (interpret fetch size fuel)
    else some s

/-- Undefined behavior during program construction: `std::vector::back()`
(followed by `pop_back()`) on an empty bracket stack. -/
inductive BuildUB where
  | backOnEmpty : BuildUB
deriving DecidableEq

/-- `m_bracket_map[k] = v` on the `std::map`. -/
def mapInsert (m : Nat → Option Instr) (k : Nat) (v : Instr) : Nat → Option Instr :=
  fun x => if x = k then some v else m x

/-- `FlyweightCode::build_bracket_map`: the left-to-right scan carrying the
current index, the partial bracket map and the auxiliary stack.  The final
stack is returned as well (the source simply lets the local vector go out
of scope, performing no leftover check). -/
def build_bracket_map :
    List Char → Nat → (Nat → Option Instr) → List Nat →
    Except BuildUB ((Nat → Option Instr) × List Nat)
  | [], _, m, stk => .ok (m, stk)
  | c :: rest, i, m, stk =>
    if c = '[' then build_bracket_map rest (i + 1) m (i :: stk)
    else if c = ']' then
      match stk with
      | [] => .error .backOnEmpty
      | j :: stk2 =>
        build_bracket_map rest (i + 1)
          (mapInsert (mapInsert m j (.jumpZero i)) i (.jumpNonzero j)) stk2
    else build_bracket_map rest (i + 1) m stk

/-- Constructing a `FlyweightCode`: run `build_bracket_map` over the whole
code string starting from an empty map and an empty stack. -/
def flyweightBuild (code : List Char) : Except BuildUB ((Nat → Option Instr) × List Nat) :=
  build_bracket_map code 0 (fun _ => none) []

/-- `FlyweightCode::operator[]`: simple characters resolve to the shared
flyweight singletons; brackets are looked up in the bracket map
(`std::map::at` throwing on a missing key is modelled by `none`); any
other character falls through to `return nullptr`, also `none`. -/
def flyweightFetch (code : List Char) (bracket_map : Nat → Option Instr) (i : Nat) : Option Instr :=
  match code[i]? with
  | none => none
  | some c =>
    if c = '+' then some .incData
    else if c = '-' then some .decData
    else if c = '>' then some .nextData
    else if c = '<' then some .prevData
    else if c = '.' then some .outData
    else if c = ',' then some .inData
    else if c = '[' then bracket_map i
    else if c = ']' then bracket_map i
    else none

/-- `parse_code`: the loop body, carrying the current index, the
instruction vector (slots that were never assigned stay `none`, modelling
null `unique_ptr`s) and the auxiliary bracket stack. -/
def parse_code :
    List Char → Nat → List (Option Instr) → List Nat →
    Except BuildUB (List (Option Instr) × List Nat)
  | [], _, ret, stk => .ok (ret, stk)
  | c :: rest, i, ret, stk =>
    if c = '+' then parse_code rest (i + 1) (ret.set i (some .incData)) stk
    else if c = '-' then parse_code rest (i + 1) (ret.set i (some .decData)) stk
    else if c = '>' then parse_code rest (i + 1) (ret.set i (some .nextData)) stk
    else if c = '<' then parse_code rest (i + 1) (ret.set i (some .prevData)) stk
    else if c = '.' then parse_code rest (i + 1) (ret.set i (some .outData)) stk
    else if c = ',' then parse_code rest (i + 1) (ret.set i (some .inData)) stk
    else if c = '[' then parse_code rest (i + 1) ret (i :: stk)
    else if c = ']' then
      match stk with
      | [] => .error .backOnEmpty
      | j :: stk2 =>
        parse_code rest (i + 1)
          ((ret.set j (some (.jumpZero i))).set i (some (.jumpNonzero j))) stk2
    else parse_code rest (i + 1) ret stk

/-- Calling `parse_code` on the whole string: the vector is created with
`code.length` null slots and the stack starts empty. -/
def parseBuild (code : List Char) : Except BuildUB (List (Option Instr) × List Nat) :=
  parse_code code 0 (List.replicate code.length none) []

/-- Fetching from a `unique_ptr_code` vector: `m_code[i]` yields the slot,
a null slot (or an out-of-range index) meaning the source would
dereference null. -/
def parseFetch (ret : List (Option Instr)) (i : Nat) : Option Instr :=
  ret.getD i none

/-- `is_bf_char` from the source. -/
def is_bf_char (c : Char) : Bool :=
  c = '+' || c = '-' || c = '>' || c = '<' || c = '.' || c = ',' || c = '[' || c = ']'

/-- The initial state built in `main`: both counters zero, zeroed tape. -/
def initState (input : List Nat) : BrainfuckState :=
  { data_counter := 0, program_counter := 0, field := fun _ => 0,
    inputStream := input, outputStream := [] }

/-- Build a `FlyweightCode` from an (already filtered) code string and run
the interpreter on the initial state, as `main` does. -/
def runProgram (code : List Char) (fuel : Nat) : Option BrainfuckState :=
  match flyweightBuild code with
  | .error _ => none
  | .ok (m, _) => interpret (flyweightFetch code m) code.length fuel (initState [])

/-- Outcome of `main`, as observable behavior. -/
inductive MainOutcome where
  | usageError (exitCode : Nat) : MainOutcome
  | buildUB (e : BuildUB) : MainOutcome
  | ran (result : Option BrainfuckState) : MainOutcome

/-- Model of `main`: with fewer than two `argv` entries it prints usage and
returns 1 before opening any file; otherwise it filters the file bytes
with `is_bf_char` (the `std::copy_if`), builds the `FlyweightCode` and
interprets it from the initial state. -/
def mainModel (argv : List String) (fileBytes : List Char) (input : List Nat) (fuel : Nat) :
    MainOutcome :=
  if argv.length < 2 then .usageError 1
  else
    match flyweightBuild (fileBytes.filter is_bf_char) with
    | .error e => .buildUB e
    | .ok (m, _) =>
      .ran (interpret (flyweightFetch (fileBytes.filter is_bf_char) m)
        (fileBytes.filter is_bf_char).length fuel (initState input))

/-- Bracket-depth scan of a string: `some d` is the final nesting depth,
`none` means a `]` occurred at depth zero.  Non-bracket characters are
ignored, as both builders ignore them for bracket matching. -/
def brDepth : List Char → Nat → Option Nat
  | [], d => some d
  | c :: rest, d =>
    if c = '[' then brDepth rest (d + 1)
    else if c = ']' then
      if d = 0 then none else brDepth rest (d - 1)
    else brDepth rest d

/-- A string has balanced brackets: the scan ends at depth zero without
ever seeing a `]` at depth zero. -/
def Balanced (l : List Char) : Prop := brDepth l 0 = some 0

instance (l : List Char) : Decidable (Balanced l) :=
  inferInstanceAs (Decidable (brDepth l 0 = some 0))

/-- The characters of `cs` at positions `a, a+1, ..., b-1`. -/
def extract (cs : List Char) (a b : Nat) : List Char := (cs.drop a).take (b - a)

/-- Position `j` holds the `]` matching the `[` at position `i`: the
characters strictly between them have balanced brackets. -/
def IsMatch (cs : List Char) (i j : Nat) : Prop :=
  cs[i]? = some '[' ∧ cs[j]? = some ']' ∧ i < j ∧ Balanced (extract cs (i + 1) j)

instance (cs : List Char) (i j : Nat) : Decidable (IsMatch cs i j) := by
  unfold IsMatch; infer_instance

/-- Invariant of the bracket scan: the auxiliary stack holds the positions
of the currently unmatched `[`s, innermost first, and between any two
consecutive entries (and between the innermost entry and the scan
position) the brackets are balanced. -/
def StackInv (cs : List Char) : Nat → List Nat → Prop
  | _, [] => True
  | i, p :: rest =>
    p < i ∧ cs[p]? = some '[' ∧ Balanced (extract cs (p + 1) i) ∧ StackInv cs p rest

/-- The instruction `parse_code` places at a position holding a simple
(non-bracket) character; `none` for brackets and unrecognized characters. -/
def instrOfChar (ch : Char) : Option Instr :=
  if ch = '+' then some .incData
  else if ch = '-' then some .decData
  else if ch = '>' then some .nextData
  else if ch = '<' then some .prevData
  else if ch = '.' then some .outData
  else if ch = ',' then some .inData
  else none

/-- Correspondence between the `parse_code` vector and the `FlyweightCode`
bracket map after scanning the first `i` characters: slots from `i` on are
untouched, simple characters below `i` hold their singleton in the vector
and nothing in the map, and bracket slots agree between the two. -/
def BuilderInv (cs : List Char) (i : Nat) (ret : List (Option Instr)) (m : Nat → Option Instr) : Prop :=
  ret.length = cs.length ∧
  (∀ k, i ≤ k → ret.getD k none = none ∧ m k = none) ∧
  (∀ k, k < i → ∀ ch, cs[k]? = some ch →
    (ret.getD k none = (if ch = '[' ∨ ch = ']' then m k else instrOfChar ch)) ∧
    (¬(ch = '[' ∨ ch = ']') → m k = none))

/-- A fixed fetch function used to instantiate universally quantified
theorems at a concrete input. -/
def demoFetch : Nat → Option Instr :=
  fun i => if i = 0 then some (.jumpZero 5) else some (.jumpNonzero 0)

/-- A fixed state used to instantiate universally quantified theorems at a
concrete input. -/
def demoState : BrainfuckState := initState []

/-- A fixed balanced program used to instantiate theorems at a concrete
input. -/
def demoProg : List Char := ['[', ']']

/-- A second fixed balanced program used to instantiate theorems at a
concrete input. -/
def demoProg2 : List Char := ['+', '[', ']']

theorem brDepth_append (l1 l2 : List Char) : ∀ d,
    brDepth (l1 ++ l2) d = (brDepth l1 d).bind (fun e => brDepth l2 e) := by
  induction l1 with
  | nil => intro d; rfl
  | cons c rest ih =>
    intro d
    rw [List.cons_append, brDepth, brDepth]
    by_cases h1 : c = '['
    · rw [if_pos h1, if_pos h1]
      exact ih (d + 1)
    · rw [if_neg h1, if_neg h1]
      by_cases h2 : c = ']'
      · rw [if_pos h2, if_pos h2]
        by_cases h3 : d = 0
        · rw [if_pos h3, if_pos h3]
          rfl
        · rw [if_neg h3, if_neg h3]
          exact ih (d - 1)
      · rw [if_neg h2, if_neg h2]
        exact ih d

theorem brDepth_shift (l : List Char) : ∀ d e k,
    brDepth l d = some e → brDepth l (d + k) = some (e + k) := by
  induction l with
  | nil =>
    intro d e k h
    rw [brDepth] at h ⊢
    injection h with h2
    rw [h2]
  | cons c rest ih =>
    intro d e k h
    rw [brDepth] at h ⊢
    by_cases h1 : c = '['
    · rw [if_pos h1] at h ⊢
      have h4 : d + k + 1 = (d + 1) + k := by omega
      rw [h4]
      exact ih (d + 1) e k h
    · rw [if_neg h1] at h ⊢
      by_cases h2 : c = ']'
      · rw [if_pos h2] at h ⊢
        by_cases h3 : d = 0
        · rw [if_pos h3] at h
          exact Option.noConfusion h
        · rw [if_neg h3] at h
          rw [if_neg (show ¬(d + k = 0) from by omega)]
          have h4 : d + k - 1 = (d - 1) + k := by omega
          rw [h4]
          exact ih (d - 1) e k h
      · rw [if_neg h2] at h ⊢
        exact ih d e k h

theorem balanced_nil : Balanced [] := rfl

theorem balanced_append (l1 l2 : List Char) (h1 : Balanced l1) (h2 : Balanced l2) :
    Balanced (l1 ++ l2) := by
  unfold Balanced at h1 h2 ⊢
  rw [brDepth_append, h1]
  simpa using h2

theorem balanced_snoc (l : List Char) (c : Char) (h : Balanced l)
    (h1 : ¬(c = '[')) (h2 : ¬(c = ']')) : Balanced (l ++ [c]) := by
  apply balanced_append _ _ h
  unfold Balanced
  simp [brDepth, h1, h2]

theorem balanced_wrap (l1 l2 : List Char) (h1 : Balanced l1) (h2 : Balanced l2) :
    Balanced (l1 ++ '[' :: (l2 ++ [']'])) := by
  apply balanced_append _ _ h1
  have hs : brDepth l2 1 = some 1 := by
    have h3 := brDepth_shift l2 0 0 1 h2
    simpa using h3
  show brDepth ('[' :: (l2 ++ [']'])) 0 = some 0
  have h4 : brDepth ('[' :: (l2 ++ [']'])) 0 = brDepth (l2 ++ [']']) 1 := by
    simp [brDepth]
  rw [h4, brDepth_append, hs]
  simp [brDepth]

theorem extract_nil (cs : List Char) (a : Nat) : extract cs a a = [] := by
  simp [extract]

theorem extract_snoc (cs : List Char) (a b : Nat) (ch : Char)
    (hab : a ≤ b) (hb : cs[b]? = some ch) :
    extract cs a (b + 1) = extract cs a b ++ [ch] := by
  unfold extract
  have h1 : b + 1 - a = (b - a) + 1 := by omega
  rw [h1, List.take_succ]
  congr 1
  rw [List.getElem?_drop]
  have h2 : a + (b - a) = b := by omega
  rw [h2, hb]
  rfl

theorem extract_glue (cs : List Char) (a b d : Nat) (h1 : a ≤ b) (h2 : b ≤ d) :
    extract cs a b ++ extract cs b d = extract cs a d := by
  unfold extract
  have h3 : d - a = (b - a) + (d - b) := by omega
  rw [h3, List.take_add]
  congr 2
  rw [List.drop_drop]
  congr 1
  omega

theorem extract_single (cs : List Char) (a : Nat) (ch : Char) (h : cs[a]? = some ch) :
    extract cs a (a + 1) = [ch] := by
  rw [extract_snoc cs a a ch (Nat.le_refl a) h, extract_nil]
  rfl

theorem stackInv_cons (cs : List Char) (i p : Nat) (rest : List Nat) :
    StackInv cs i (p :: rest) ↔
      (p < i ∧ cs[p]? = some '[' ∧ Balanced (extract cs (p + 1) i) ∧ StackInv cs p rest) :=
  Iff.rfl

theorem drop_cons_facts (cs : List Char) (i : Nat) (ch : Char) (rest : List Char)
    (h : ch :: rest = cs.drop i) : cs[i]? = some ch ∧ rest = cs.drop (i + 1) := by
  constructor
  · have h0 : (cs.drop i)[0]? = some ch := by rw [← h]; simp
    rw [List.getElem?_drop] at h0
    simpa using h0
  · have h1 : (cs.drop i).tail = rest := by rw [← h]; rfl
    rw [List.tail_drop] at h1
    exact h1.symm

theorem getD_set_self (l : List (Option Instr)) (i : Nat) (v : Option Instr)
    (h : i < l.length) : (l.set i v).getD i none = v := by
  rw [List.getD_eq_getElem?_getD, List.getElem?_set_self h]
  rfl

theorem getD_set_ne (l : List (Option Instr)) (i k : Nat) (v : Option Instr)
    (h : k ≠ i) : (l.set i v).getD k none = l.getD k none := by
  rw [List.getD_eq_getElem?_getD, List.getElem?_set_ne (Ne.symm h), ← List.getD_eq_getElem?_getD]

theorem build_bracket_map_nil (i : Nat) (m : Nat → Option Instr) (stk : List Nat) :
    build_bracket_map [] i m stk = .ok (m, stk) := rfl

theorem build_bracket_map_cons (ch : Char) (rest : List Char) (i : Nat)
    (m : Nat → Option Instr) (stk : List Nat) :
    build_bracket_map (ch :: rest) i m stk =
      (if ch = '[' then build_bracket_map rest (i + 1) m (i :: stk)
      else if ch = ']' then
        match stk with
        | [] => .error .backOnEmpty
        | j :: stk2 =>
          build_bracket_map rest (i + 1)
            (mapInsert (mapInsert m j (.jumpZero i)) i (.jumpNonzero j)) stk2
      else build_bracket_map rest (i + 1) m stk) := rfl

theorem interpret_halted (fetch : Nat → Option Instr) (size : Nat) :
    ∀ fuel s s2, interpret fetch size fuel s = some s2 → size ≤ s2.program_counter := by
  intro fuel
  induction fuel with
  | zero => intro s s2 h; simp [interpret] at h
  | succ n ih =>
    intro s s2 h
    rw [interpret] at h
    by_cases hlt : s.program_counter < size
    · rw [if_pos hlt] at h
      cases hstep : step fetch s with
      | none => rw [hstep] at h; simp at h
      | some u => rw [hstep] at h; simp at h; exact ih u s2 h
    · rw [if_neg hlt] at h
      injection h with h2
      subst h2
      omega

/-- Claim C5: cell arithmetic wraps modulo 256 in both directions:
incrementing a cell holding 255 yields 0, decrementing a cell holding 0
yields 255, and for every other byte value the instructions add or
subtract exactly 1. -/
theorem cell_wraparound (s : BrainfuckState) (v : Nat)
    (hv : s.field s.data_counter = v) (hb : v < 256) :
    (Instr.incData.execute s).field s.data_counter = (if v = 255 then 0 else v + 1) ∧
    (Instr.decData.execute s).field s.data_counter = (if v = 0 then 255 else v - 1) := by
  have hinc : (Instr.incData.execute s).field s.data_counter = (s.field s.data_counter + 1) % 256 := by
    simp [Instr.execute, writeCell, CELL_MOD]
  have hdec : (Instr.decData.execute s).field s.data_counter = (s.field s.data_counter + 255) % 256 := by
    simp [Instr.execute, writeCell, CELL_MOD]
  rw [hinc, hdec, hv]
  constructor
  · by_cases h : v = 255
    · subst h; norm_num
    · rw [if_neg h]; omega
  · by_cases h : v = 0
    · subst h; norm_num
    · rw [if_neg h]; omega

theorem cell_wraparound_witness :
    (Instr.incData.execute demoState).field demoState.data_counter = (if 0 = 255 then 0 else 0 + 1) ∧
    (Instr.decData.execute demoState).field demoState.data_counter = (if (0 : Nat) = 0 then 255 else 0 - 1) :=
  cell_wraparound demoState 0 rfl (by decide)

/-- Claim C3: a jump-if-zero executed on a zero cell (or a jump-if-nonzero
on a nonzero cell) sets the program counter to the target, so after the
dispatch loop's unconditional increment execution resumes at target + 1;
when the condition fails the instruction leaves the state unchanged and
execution falls through to the next index. -/
theorem jump_resume_semantics (fetch : Nat → Option Instr) (s : BrainfuckState) (t : Nat)
    (ht : t + 1 < SIZE_MOD) (hs : s.program_counter + 1 < SIZE_MOD) :
    (fetch s.program_counter = some (.jumpZero t) → s.field s.data_counter = 0 →
      (step fetch s).map (fun u => u.program_counter) = some (t + 1)) ∧
    (fetch s.program_counter = some (.jumpNonzero t) → s.field s.data_counter ≠ 0 →
      (step fetch s).map (fun u => u.program_counter) = some (t + 1)) ∧
    (fetch s.program_counter = some (.jumpZero t) → s.field s.data_counter ≠ 0 →
      Instr.execute (.jumpZero t) s = s ∧
      (step fetch s).map (fun u => u.program_counter) = some (s.program_counter + 1)) ∧
    (fetch s.program_counter = some (.jumpNonzero t) → s.field s.data_counter = 0 →
      Instr.execute (.jumpNonzero t) s = s ∧
      (step fetch s).map (fun u => u.program_counter) = some (s.program_counter + 1)) := by
  have hwt : sizeTSucc t = t + 1 := by unfold sizeTSucc; rw [if_neg (by omega)]
  have hws : sizeTSucc s.program_counter = s.program_counter + 1 := by
    unfold sizeTSucc; rw [if_neg (by omega)]
  refine ⟨?_, ?_, ?_, ?_⟩
  · intro hf hc
    simp [step, hf, Instr.execute, hc, incrementPC, hwt]
  · intro hf hc
    simp [step, hf, Instr.execute, hc, incrementPC, hwt]
  · intro hf hc
    have hexec : Instr.execute (.jumpZero t) s = s := by simp [Instr.execute, hc]
    exact ⟨hexec, by simp [step, hf, hexec, incrementPC, hws]⟩
  · intro hf hc
    have hexec : Instr.execute (.jumpNonzero t) s = s := by simp [Instr.execute, hc]
    exact ⟨hexec, by simp [step, hf, hexec, incrementPC, hws]⟩

theorem jump_resume_semantics_witness :
    (demoFetch demoState.program_counter = some (.jumpZero 5) → demoState.field demoState.data_counter = 0 →
      (step demoFetch demoState).map (fun u => u.program_counter) = some (5 + 1)) ∧
    (demoFetch demoState.program_counter = some (.jumpNonzero 5) → demoState.field demoState.data_counter ≠ 0 →
      (step demoFetch demoState).map (fun u => u.program_counter) = some (5 + 1)) ∧
    (demoFetch demoState.program_counter = some (.jumpZero 5) → demoState.field demoState.data_counter ≠ 0 →
      Instr.execute (.jumpZero 5) demoState = demoState ∧
      (step demoFetch demoState).map (fun u => u.program_counter) = some (demoState.program_counter + 1)) ∧
    (demoFetch demoState.program_counter = some (.jumpNonzero 5) → demoState.field demoState.data_counter = 0 →
      Instr.execute (.jumpNonzero 5) demoState = demoState ∧
      (step demoFetch demoState).map (fun u => u.program_counter) = some (demoState.program_counter + 1)) :=
  jump_resume_semantics demoFetch demoState 5 (by decide) (by decide)

/-- Claim C4: each iteration of the dispatch loop, taken while the program
counter is below the program length, is exactly one fetch, one execute and
one unconditional increment; the loop returns the state unchanged as soon
as the counter reaches the length; and any state the loop halts in has its
program counter at or past the length — there is no other exit path. -/
theorem dispatch_loop_shape (fetch : Nat → Option Instr) (size fuel : Nat)
    (s s2 : BrainfuckState) (h : interpret fetch size fuel s = some s2) :
    interpret fetch size (fuel + 1) s =
      (if s.program_counter < size then (step fetch s).bind (interpret fetch size fuel)
       else some s) ∧
    step fetch s = (fetch s.program_counter).map (fun ins => incrementPC (ins.execute s)) ∧
    size ≤ s2.program_counter :=
  ⟨rfl, rfl, interpret_halted fetch size fuel s s2 h⟩

theorem dispatch_loop_shape_witness :
    interpret demoFetch 0 1 demoState =
      (if demoState.program_counter < 0 then (step demoFetch demoState).bind (interpret demoFetch 0 1)
       else some demoState) ∧
    step demoFetch demoState = (demoFetch demoState.program_counter).map (fun ins => incrementPC (ins.execute demoState)) ∧
    0 ≤ demoState.program_counter :=
  dispatch_loop_shape demoFetch 0 1 demoState demoState rfl

/-- Claim C7: filtering with `is_bf_char` is idempotent — a string of pure
operation characters is returned unchanged, and filtering twice equals
filtering once. -/
theorem filter_idempotent (l l2 : List Char) (h : l.all is_bf_char = true) :
    l.filter is_bf_char = l ∧
    (l2.filter is_bf_char).filter is_bf_char = l2.filter is_bf_char := by
  constructor
  · exact List.filter_eq_self.mpr (List.all_eq_true.mp h)
  · exact List.filter_eq_self.mpr (fun a ha => List.of_mem_filter ha)

theorem filter_idempotent_witness :
    List.filter is_bf_char ['+', '[', '-', ']'] = ['+', '[', '-', ']'] ∧
    (List.filter is_bf_char ['a', '+', ' ']).filter is_bf_char = List.filter is_bf_char ['a', '+', ' '] :=
  filter_idempotent ['+', '[', '-', ']'] ['a', '+', ' '] (by decide)

/-- Claim C8: with fewer than two argv entries, `main` prints the usage
message to the error stream and exits with status 1, reading no file and
executing no program. -/
theorem missing_arg_usage_error (argv : List String) (fileBytes : List Char)
    (input : List Nat) (fuel : Nat) (h : argv.length < 2) :
    mainModel argv fileBytes input fuel = .usageError 1 := by
  unfold mainModel
  rw [if_pos h]

theorem missing_arg_usage_error_witness :
    mainModel ["bf"] ['+'] [] 3 = .usageError 1 :=
  missing_arg_usage_error ["bf"] ['+'] [] 3 (by decide)

/-- Claim C9: the six non-jump instructions never touch the program
counter; a jump whose condition fails is a complete no-op, and one whose
condition holds changes only the program counter; cursor moves leave every
tape cell unchanged; and cell arithmetic changes only the addressed cell,
leaving both counters and all other cells unchanged. -/
theorem instruction_frame_conditions (s : BrainfuckState) (t k : Nat) :
    ((Instr.incData.execute s).program_counter = s.program_counter) ∧
    ((Instr.decData.execute s).program_counter = s.program_counter) ∧
    ((Instr.nextData.execute s).program_counter = s.program_counter) ∧
    ((Instr.prevData.execute s).program_counter = s.program_counter) ∧
    ((Instr.inData.execute s).program_counter = s.program_counter) ∧
    ((Instr.outData.execute s).program_counter = s.program_counter) ∧
    (s.field s.data_counter ≠ 0 → (Instr.jumpZero t).execute s = s) ∧
    (s.field s.data_counter = 0 → (Instr.jumpNonzero t).execute s = s) ∧
    (s.field s.data_counter = 0 → (Instr.jumpZero t).execute s = { s with program_counter := t }) ∧
    (s.field s.data_counter ≠ 0 → (Instr.jumpNonzero t).execute s = { s with program_counter := t }) ∧
    ((Instr.nextData.execute s).field k = s.field k) ∧
    ((Instr.prevData.execute s).field k = s.field k) ∧
    (k ≠ s.data_counter → (Instr.incData.execute s).field k = s.field k) ∧
    (k ≠ s.data_counter → (Instr.decData.execute s).field k = s.field k) ∧
    ((Instr.incData.execute s).data_counter = s.data_counter) ∧
    ((Instr.decData.execute s).data_counter = s.data_counter) := by
  refine ⟨rfl, rfl, rfl, rfl, rfl, rfl, ?_, ?_, ?_, ?_, rfl, rfl, ?_, ?_, rfl, rfl⟩
  · intro h; simp [Instr.execute, h]
  · intro h; simp [Instr.execute, h]
  · intro h; simp [Instr.execute, h]
  · intro h; simp [Instr.execute, h]
  · intro h; simp [Instr.execute, writeCell, h]
  · intro h; simp [Instr.execute, writeCell, h]

theorem instruction_frame_conditions_witness :
    ((Instr.incData.execute demoState).program_counter = demoState.program_counter) ∧
    ((Instr.decData.execute demoState).program_counter = demoState.program_counter) ∧
    ((Instr.nextData.execute demoState).program_counter = demoState.program_counter) ∧
    ((Instr.prevData.execute demoState).program_counter = demoState.program_counter) ∧
    ((Instr.inData.execute demoState).program_counter = demoState.program_counter) ∧
    ((Instr.outData.execute demoState).program_counter = demoState.program_counter) ∧
    (demoState.field demoState.data_counter ≠ 0 → (Instr.jumpZero 3).execute demoState = demoState) ∧
    (demoState.field demoState.data_counter = 0 → (Instr.jumpNonzero 3).execute demoState = demoState) ∧
    (demoState.field demoState.data_counter = 0 → (Instr.jumpZero 3).execute demoState = { demoState with program_counter := 3 }) ∧
    (demoState.field demoState.data_counter ≠ 0 → (Instr.jumpNonzero 3).execute demoState = { demoState with program_counter := 3 }) ∧
    ((Instr.nextData.execute demoState).field 1 = demoState.field 1) ∧
    ((Instr.prevData.execute demoState).field 1 = demoState.field 1) ∧
    (1 ≠ demoState.data_counter → (Instr.incData.execute demoState).field 1 = demoState.field 1) ∧
    (1 ≠ demoState.data_counter → (Instr.decData.execute demoState).field 1 = demoState.field 1) ∧
    ((Instr.incData.execute demoState).data_counter = demoState.data_counter) ∧
    ((Instr.decData.execute demoState).data_counter = demoState.data_counter) :=
  instruction_frame_conditions demoState 3 1

/-- Claim C6: the program `+[-]` from the initial state terminates (within
10 fuel), halting with the program counter past the end and the first tape
cell back at 0. -/
theorem plus_loop_minus_runs_to_zero :
    (runProgram ['+', '[', '-', ']'] 10).isSome = true ∧
    (runProgram ['+', '[', '-', ']'] 10).map (fun s => s.field 0) = some 0 ∧
    (runProgram ['+', '[', '-', ']'] 10).map (fun s => s.program_counter) = some 4 :=
  ⟨rfl, rfl, rfl⟩

/-- Claim C1 (actual behavior at the failing inputs): on the unmatched-`]`
input the builder performs `vector::back()` on an empty stack (undefined
behavior, not a detectable error); on the unmatched-`[` input `"+["`
construction succeeds with no error signal, the dispatch loop then
executes the `+` instruction (tape cell 0 becomes 1), and only the second
step fails when the unmatched `[` has no bracket-map entry
(`std::map::at` throws during execution). -/
theorem unbalanced_brackets_undetected :
    flyweightBuild [']'] = .error .backOnEmpty ∧
    flyweightBuild ['+', '['] = .ok (fun _ => none, [1]) ∧
    (step (flyweightFetch ['+', '['] (fun _ => none)) (initState [])).map (fun s => s.field 0) = some 1 ∧
    ((step (flyweightFetch ['+', '['] (fun _ => none)) (initState [])).bind
      (step (flyweightFetch ['+', '['] (fun _ => none)))) = none :=
  ⟨rfl, rfl, rfl, rfl⟩

theorem build_bracket_map_sound (cs : List Char) :
    ∀ rest i m stk m2 stk2,
      rest = cs.drop i →
      StackInv cs i stk →
      build_bracket_map rest i m stk = .ok (m2, stk2) →
      ∀ k v, m2 k = some v →
        m k = some v ∨
        ∃ a b, IsMatch cs a b ∧
          ((k = a ∧ v = .jumpZero b) ∨ (k = b ∧ v = .jumpNonzero a)) := by
  intro rest
  induction rest with
  | nil =>
    intro i m stk m2 stk2 hdrop hinv hok k v hk
    rw [build_bracket_map_nil] at hok
    injection hok with h3
    rw [Prod.mk.injEq] at h3
    obtain ⟨h4, h5⟩ := h3
    left
    rw [h4]
    exact hk
  | cons ch rest2 ih =>
    intro i m stk m2 stk2 hdrop hinv hok k v hk
    obtain ⟨hch, hdrop2⟩ := drop_cons_facts cs i ch rest2 hdrop
    rw [build_bracket_map_cons] at hok
    by_cases h1 : ch = '['
    · rw [if_pos h1] at hok
      have hinv2 : StackInv cs (i + 1) (i :: stk) := by
        rw [stackInv_cons]
        refine ⟨Nat.lt_succ_self i, ?_, ?_, hinv⟩
        · rw [← h1]; exact hch
        · rw [extract_nil]; exact balanced_nil
      exact ih (i + 1) m (i :: stk) m2 stk2 hdrop2 hinv2 hok k v hk
    · rw [if_neg h1] at hok
      by_cases h2 : ch = ']'
      · rw [if_pos h2] at hok
        rw [h2] at hch
        cases stk with
        | nil => exact Except.noConfusion hok
        | cons j stk3 =>
          rw [stackInv_cons] at hinv
          obtain ⟨hji, hjc, hbal, htl⟩ := hinv
          have hmatch : IsMatch cs j i := ⟨hjc, hch, hji, hbal⟩
          have hinv2 : StackInv cs (i + 1) stk3 := by
            cases stk3 with
            | nil => trivial
            | cons q stk4 =>
              rw [stackInv_cons] at htl ⊢
              obtain ⟨hqj, hqc, hqbal, htl2⟩ := htl
              refine ⟨by omega, hqc, ?_, htl2⟩
              have e1 : extract cs (q + 1) (i + 1) =
                  extract cs (q + 1) j ++ ('[' :: (extract cs (j + 1) i ++ [']'])) := by
                rw [← extract_glue cs (q + 1) j (i + 1) (by omega) (by omega)]
                congr 1
                rw [← extract_glue cs j (j + 1) (i + 1) (by omega) (by omega)]
                rw [extract_single cs j '[' hjc]
                rw [extract_snoc cs (j + 1) i ']' (by omega) hch]
                rfl
              rw [e1]
              exact balanced_wrap _ _ hqbal hbal
          have hrec := ih (i + 1) _ stk3 m2 stk2 hdrop2 hinv2 hok k v hk
          rcases hrec with hmk | hpair
          · unfold mapInsert at hmk
            by_cases hki : k = i
            · rw [if_pos hki] at hmk
              injection hmk with hv
              right
              exact ⟨j, i, hmatch, Or.inr ⟨hki, hv.symm⟩⟩
            · rw [if_neg hki] at hmk
              by_cases hkj : k = j
              · rw [if_pos hkj] at hmk
                injection hmk with hv
                right
                exact ⟨j, i, hmatch, Or.inl ⟨hkj, hv.symm⟩⟩
              · rw [if_neg hkj] at hmk
                left
                exact hmk
          · right
            exact hpair
      · rw [if_neg h2] at hok
        have hinv2 : StackInv cs (i + 1) stk := by
          cases stk with
          | nil => trivial
          | cons p stk3 =>
            rw [stackInv_cons] at hinv ⊢
            obtain ⟨hpi, hpc, hpb, htl⟩ := hinv
            refine ⟨by omega, hpc, ?_, htl⟩
            rw [extract_snoc cs (p + 1) i ch (by omega) hch]
            exact balanced_snoc _ _ hpb h1 h2
        exact ih (i + 1) m stk m2 stk2 hdrop2 hinv2 hok k v hk

theorem build_bracket_map_mono :
    ∀ (rest : List Char) (i : Nat) (m : Nat → Option Instr) (stk : List Nat) m2 stk2,
      build_bracket_map rest i m stk = .ok (m2, stk2) →
      ∀ k, (m k).isSome = true → (m2 k).isSome = true := by
  intro rest
  induction rest with
  | nil =>
    intro i m stk m2 stk2 hok k hk
    rw [build_bracket_map_nil] at hok
    injection hok with h3
    rw [Prod.mk.injEq] at h3
    rw [← h3.1]
    exact hk
  | cons ch rest2 ih =>
    intro i m stk m2 stk2 hok k hk
    rw [build_bracket_map_cons] at hok
    by_cases h1 : ch = '['
    · rw [if_pos h1] at hok
      exact ih (i + 1) m (i :: stk) m2 stk2 hok k hk
    · rw [if_neg h1] at hok
      by_cases h2 : ch = ']'
      · rw [if_pos h2] at hok
        cases stk with
        | nil => exact Except.noConfusion hok
        | cons j stk3 =>
          refine ih (i + 1) _ stk3 m2 stk2 hok k ?_
          unfold mapInsert
          by_cases hki : k = i
          · rw [if_pos hki]; rfl
          · rw [if_neg hki]
            by_cases hkj : k = j
            · rw [if_pos hkj]; rfl
            · rw [if_neg hkj]; exact hk
      · rw [if_neg h2] at hok
        exact ih (i + 1) m stk m2 stk2 hok k hk

theorem build_bracket_map_filled (cs : List Char) :
    ∀ rest i m stk m2 stk2,
      rest = cs.drop i →
      build_bracket_map rest i m stk = .ok (m2, stk2) →
      ∀ k, ((i ≤ k ∧ (cs[k]? = some '[' ∨ cs[k]? = some ']')) ∨ k ∈ stk) →
        (m2 k).isSome = true ∨ k ∈ stk2 := by
  intro rest
  induction rest with
  | nil =>
    intro i m stk m2 stk2 hdrop hok k hcond
    have hlen : cs.length ≤ i := List.drop_eq_nil_iff.mp hdrop.symm
    rw [build_bracket_map_nil] at hok
    injection hok with h3
    rw [Prod.mk.injEq] at h3
    obtain ⟨h4, h5⟩ := h3
    rcases hcond with ⟨hik, hbr | hbr⟩ | hstk
    · rw [List.getElem?_eq_none (by omega)] at hbr
      exact Option.noConfusion hbr
    · rw [List.getElem?_eq_none (by omega)] at hbr
      exact Option.noConfusion hbr
    · right
      rw [← h5]
      exact hstk
  | cons ch rest2 ih =>
    intro i m stk m2 stk2 hdrop hok k hcond
    obtain ⟨hch, hdrop2⟩ := drop_cons_facts cs i ch rest2 hdrop
    rw [build_bracket_map_cons] at hok
    by_cases h1 : ch = '['
    · rw [if_pos h1] at hok
      refine ih (i + 1) m (i :: stk) m2 stk2 hdrop2 hok k ?_
      rcases hcond with ⟨hik, hbr⟩ | hstk
      · by_cases hki : k = i
        · right
          rw [hki]
          exact List.mem_cons_self i stk
        · left
          exact ⟨by omega, hbr⟩
      · right
        exact List.mem_cons_of_mem i hstk
    · rw [if_neg h1] at hok
      by_cases h2 : ch = ']'
      · rw [if_pos h2] at hok
        cases stk with
        | nil => exact Except.noConfusion hok
        | cons j stk3 =>
          by_cases hki : k = i
          · left
            refine build_bracket_map_mono rest2 (i + 1) _ stk3 m2 stk2 hok k ?_
            unfold mapInsert
            rw [if_pos hki]
            rfl
          · by_cases hkj : k = j
            · left
              refine build_bracket_map_mono rest2 (i + 1) _ stk3 m2 stk2 hok k ?_
              unfold mapInsert
              rw [if_neg hki, if_pos hkj]
              rfl
            · refine ih (i + 1) _ stk3 m2 stk2 hdrop2 hok k ?_
              rcases hcond with ⟨hik, hbr⟩ | hstk
              · left
                exact ⟨by omega, hbr⟩
              · rcases List.mem_cons.mp hstk with hj | h3
                · exact absurd hj hkj
                · right
                  exact h3
      · rw [if_neg h2] at hok
        refine ih (i + 1) m stk m2 stk2 hdrop2 hok k ?_
        rcases hcond with ⟨hik, hbr⟩ | hstk
        · left
          have hne : ¬(k = i) := by
            intro hk2
            rw [hk2, hch] at hbr
            rcases hbr with hbr | hbr
            · injection hbr with hbr2
              exact absurd hbr2 h1
            · injection hbr with hbr2
              exact absurd hbr2 h2
          exact ⟨by omega, hbr⟩
        · right
          exact hstk

theorem build_bracket_map_total :
    ∀ (rest : List Char) (i : Nat) (m : Nat → Option Instr) (stk : List Nat) (d : Nat),
      brDepth rest stk.length = some d →
      ∃ m2 stk2, build_bracket_map rest i m stk = .ok (m2, stk2) ∧ stk2.length = d := by
  intro rest
  induction rest with
  | nil =>
    intro i m stk d h
    refine ⟨m, stk, ?_, ?_⟩
    · rw [build_bracket_map_nil]
    · rw [brDepth] at h
      injection h with h2
  | cons ch rest2 ih =>
    intro i m stk d h
    rw [brDepth] at h
    by_cases h1 : ch = '['
    · rw [if_pos h1] at h
      have h3 : brDepth rest2 (List.length (i :: stk)) = some d := by
        rw [List.length_cons]
        exact h
      obtain ⟨m2, stk2, hok, hlen⟩ := ih (i + 1) m (i :: stk) d h3
      refine ⟨m2, stk2, ?_, hlen⟩
      rw [build_bracket_map_cons, if_pos h1]
      exact hok
    · rw [if_neg h1] at h
      by_cases h2 : ch = ']'
      · rw [if_pos h2] at h
        cases stk with
        | nil =>
          rw [List.length_nil, if_pos rfl] at h
          exact Option.noConfusion h
        | cons j stk3 =>
          rw [List.length_cons, if_neg (Nat.succ_ne_zero _)] at h
          have h3 : brDepth rest2 (List.length stk3) = some d := by
            have h4 : stk3.length + 1 - 1 = stk3.length := by omega
            rw [h4] at h
            exact h
          obtain ⟨m2, stk2, hok, hlen⟩ :=
            ih (i + 1) (mapInsert (mapInsert m j (.jumpZero i)) i (.jumpNonzero j)) stk3 d h3
          refine ⟨m2, stk2, ?_, hlen⟩
          rw [build_bracket_map_cons, if_neg h1, if_pos h2]
          exact hok
      · rw [if_neg h2] at h
        obtain ⟨m2, stk2, hok, hlen⟩ := ih (i + 1) m stk d h
        refine ⟨m2, stk2, ?_, hlen⟩
        rw [build_bracket_map_cons, if_neg h1, if_neg h2]
        exact hok

theorem flyweightFetch_bracket (cs : List Char) (m : Nat → Option Instr) (i : Nat)
    (h : cs[i]? = some '[' ∨ cs[i]? = some ']') : flyweightFetch cs m i = m i := by
  unfold flyweightFetch
  rcases h with h | h <;> rw [h] <;> simp

/-- Claim C2: for every balanced-bracket source string, program
construction succeeds (the bracket scan completes with an empty leftover
stack), every slot at a `[` position holds a jump-if-zero instruction
whose target is the index of its matching `]`, and every slot at a `]`
position holds a jump-if-nonzero instruction whose target is the index of
its matching `[`. -/
theorem balanced_build_correct (cs : List Char) (h : Balanced cs) :
    ∃ m, flyweightBuild cs = .ok (m, []) ∧
      (∀ i, cs[i]? = some '[' →
        ∃ j, IsMatch cs i j ∧ flyweightFetch cs m i = some (.jumpZero j)) ∧
      (∀ j, cs[j]? = some ']' →
        ∃ i, IsMatch cs i j ∧ flyweightFetch cs m j = some (.jumpNonzero i)) := by
  obtain ⟨m2, stk2, hok, hlen⟩ := build_bracket_map_total cs 0 (fun _ => none) [] 0 h
  have hstk : stk2 = [] := List.eq_nil_of_length_eq_zero hlen
  rw [hstk] at hok
  refine ⟨m2, hok, ?_, ?_⟩
  · intro i hi
    have hfill := build_bracket_map_filled cs cs 0 (fun _ => none) [] m2 []
      (List.drop_zero cs).symm hok i (Or.inl ⟨Nat.zero_le i, Or.inl hi⟩)
    rcases hfill with hsome | hmem
    · obtain ⟨v, hv⟩ := Option.isSome_iff_exists.mp hsome
      have hsound := build_bracket_map_sound cs cs 0 (fun _ => none) [] m2 []
        (List.drop_zero cs).symm trivial hok i v hv
      rcases hsound with hnone | ⟨a, b, hmatch, hcase⟩
      · exact Option.noConfusion hnone
      · rcases hcase with ⟨hka, hva⟩ | ⟨hkb, hvb⟩
        · refine ⟨b, ?_, ?_⟩
          · rw [hka]; exact hmatch
          · rw [flyweightFetch_bracket cs m2 i (Or.inl hi), hv, hva]
        · obtain ⟨hma, hmb, hmlt, hmbal⟩ := hmatch
          rw [← hkb, hi] at hmb
          injection hmb with hmb2
          exact absurd hmb2 (by decide)
    · exact absurd hmem (List.not_mem_nil i)
  · intro j hj
    have hfill := build_bracket_map_filled cs cs 0 (fun _ => none) [] m2 []
      (List.drop_zero cs).symm hok j (Or.inl ⟨Nat.zero_le j, Or.inr hj⟩)
    rcases hfill with hsome | hmem
    · obtain ⟨v, hv⟩ := Option.isSome_iff_exists.mp hsome
      have hsound := build_bracket_map_sound cs cs 0 (fun _ => none) [] m2 []
        (List.drop_zero cs).symm trivial hok j v hv
      rcases hsound with hnone | ⟨a, b, hmatch, hcase⟩
      · exact Option.noConfusion hnone
      · rcases hcase with ⟨hka, hva⟩ | ⟨hkb, hvb⟩
        · obtain ⟨hma, hmb, hmlt, hmbal⟩ := hmatch
          rw [← hka, hj] at hma
          injection hma with hma2
          exact absurd hma2 (by decide)
        · refine ⟨a, ?_, ?_⟩
          · rw [hkb]; exact hmatch
          · rw [flyweightFetch_bracket cs m2 j (Or.inr hj), hv, hvb]
    · exact absurd hmem (List.not_mem_nil j)

theorem lt_length_of_getElem_some (cs : List Char) (i : Nat) (ch : Char)
    (h : cs[i]? = some ch) : i < cs.length := by
  by_contra hcon
  rw [List.getElem?_eq_none (by omega)] at h
  exact Option.noConfusion h

theorem parse_code_nil (i : Nat) (ret : List (Option Instr)) (stk : List Nat) :
    parse_code [] i ret stk = .ok (ret, stk) := rfl

theorem parse_code_cons_eq (ch : Char) (rest2 : List Char) (i : Nat)
    (ret : List (Option Instr)) (stk : List Nat) :
    parse_code (ch :: rest2) i ret stk =
      (if ch = '+' then parse_code rest2 (i + 1) (ret.set i (some .incData)) stk
      else if ch = '-' then parse_code rest2 (i + 1) (ret.set i (some .decData)) stk
      else if ch = '>' then parse_code rest2 (i + 1) (ret.set i (some .nextData)) stk
      else if ch = '<' then parse_code rest2 (i + 1) (ret.set i (some .prevData)) stk
      else if ch = '.' then parse_code rest2 (i + 1) (ret.set i (some .outData)) stk
      else if ch = ',' then parse_code rest2 (i + 1) (ret.set i (some .inData)) stk
      else if ch = '[' then parse_code rest2 (i + 1) ret (i :: stk)
      else if ch = ']' then
        match stk with
        | [] => .error .backOnEmpty
        | j :: stk2 =>
          parse_code rest2 (i + 1)
            ((ret.set j (some (.jumpZero i))).set i (some (.jumpNonzero j))) stk2
      else parse_code rest2 (i + 1) ret stk) := rfl

theorem parse_code_cons (ch : Char) (rest2 : List Char) (i : Nat)
    (ret : List (Option Instr)) (stk : List Nat) :
    parse_code (ch :: rest2) i ret stk =
      (if ch = '[' then parse_code rest2 (i + 1) ret (i :: stk)
      else if ch = ']' then
        match stk with
        | [] => .error .backOnEmpty
        | j :: stk2 =>
          parse_code rest2 (i + 1)
            ((ret.set j (some (.jumpZero i))).set i (some (.jumpNonzero j))) stk2
      else
        match instrOfChar ch with
        | some v => parse_code rest2 (i + 1) (ret.set i (some v)) stk
        | none => parse_code rest2 (i + 1) ret stk) := by
  by_cases h1 : ch = '+'
  · rw [h1]; rfl
  · by_cases h2 : ch = '-'
    · rw [h2]; rfl
    · by_cases h3 : ch = '>'
      · rw [h3]; rfl
      · by_cases h4 : ch = '<'
        · rw [h4]; rfl
        · by_cases h5 : ch = '.'
          · rw [h5]; rfl
          · by_cases h6 : ch = ','
            · rw [h6]; rfl
            · by_cases h7 : ch = '['
              · rw [h7]; rfl
              · by_cases h8 : ch = ']'
                · rw [h8]
                  cases stk with
                  | nil => rfl
                  | cons j stk3 => rfl
                · rw [parse_code_cons_eq]
                  rw [if_neg h1, if_neg h2, if_neg h3, if_neg h4, if_neg h5, if_neg h6,
                    if_neg h7, if_neg h8]
                  rw [if_neg h7, if_neg h8]
                  rw [show instrOfChar ch = none from by
                    unfold instrOfChar
                    rw [if_neg h1, if_neg h2, if_neg h3, if_neg h4, if_neg h5, if_neg h6]]

theorem getD_replicate_none (n k : Nat) :
    (List.replicate n (none : Option Instr)).getD k none = none := by
  rw [List.getD_eq_getElem?_getD]
  cases h : (List.replicate n (none : Option Instr))[k]? with
  | none => rfl
  | some v =>
    have hm := List.getElem?_mem h
    rw [List.eq_of_mem_replicate hm]
    rfl

theorem builderInv_push (cs : List Char) (i : Nat) (ret : List (Option Instr))
    (m : Nat → Option Instr) (hinv : BuilderInv cs i ret m) (hic : cs[i]? = some '[') :
    BuilderInv cs (i + 1) ret m := by
  obtain ⟨hlen, hA, hB⟩ := hinv
  refine ⟨hlen, fun k hk => hA k (by omega), ?_⟩
  intro k hk ch2 hch2
  by_cases hki : k = i
  · rw [hki] at hch2 ⊢
    rw [hic] at hch2
    injection hch2 with hch3
    rw [← hch3]
    constructor
    · rw [if_pos (Or.inl rfl)]
      rw [(hA i (Nat.le_refl i)).1, (hA i (Nat.le_refl i)).2]
    · intro hcon
      exact absurd (Or.inl rfl) hcon
  · exact hB k (by omega) ch2 hch2

theorem builderInv_other (cs : List Char) (i : Nat) (ret : List (Option Instr))
    (m : Nat → Option Instr) (hinv : BuilderInv cs i ret m) (ch : Char)
    (hch : cs[i]? = some ch) (hv : instrOfChar ch = none)
    (h1 : ¬(ch = '[')) (h2 : ¬(ch = ']')) :
    BuilderInv cs (i + 1) ret m := by
  obtain ⟨hlen, hA, hB⟩ := hinv
  refine ⟨hlen, fun k hk => hA k (by omega), ?_⟩
  intro k hk ch2 hch2
  by_cases hki : k = i
  · rw [hki] at hch2 ⊢
    rw [hch] at hch2
    injection hch2 with hch3
    rw [← hch3]
    refine ⟨?_, fun hcon => (hA i (Nat.le_refl i)).2⟩
    rw [if_neg (fun hor => hor.elim h1 h2)]
    rw [(hA i (Nat.le_refl i)).1, hv]
  · exact hB k (by omega) ch2 hch2

theorem builderInv_set_simple (cs : List Char) (i : Nat) (ret : List (Option Instr))
    (m : Nat → Option Instr) (hinv : BuilderInv cs i ret m) (ch : Char)
    (hch : cs[i]? = some ch) (v : Instr) (hv : instrOfChar ch = some v)
    (hbr1 : ¬(ch = '[')) (hbr2 : ¬(ch = ']')) :
    BuilderInv cs (i + 1) (ret.set i (some v)) m := by
  obtain ⟨hlen, hA, hB⟩ := hinv
  have hilen : i < cs.length := lt_length_of_getElem_some cs i ch hch
  refine ⟨by rw [List.length_set, hlen], ?_, ?_⟩
  · intro k hk
    rw [getD_set_ne _ _ _ _ (show k ≠ i from by omega)]
    exact hA k (by omega)
  · intro k hk ch2 hch2
    by_cases hki : k = i
    · rw [hki] at hch2 ⊢
      rw [hch] at hch2
      injection hch2 with hch3
      rw [← hch3]
      rw [getD_set_self _ _ _ (by rw [hlen]; exact hilen)]
      refine ⟨?_, fun hcon => (hA i (Nat.le_refl i)).2⟩
      rw [if_neg (fun hor => hor.elim hbr1 hbr2)]
      exact hv.symm
    · rw [getD_set_ne _ _ _ _ hki]
      exact hB k (by omega) ch2 hch2

theorem builderInv_set_brackets (cs : List Char) (i j : Nat) (ret : List (Option Instr))
    (m : Nat → Option Instr) (hinv : BuilderInv cs i ret m)
    (hji : j < i) (hjc : cs[j]? = some '[') (hic : cs[i]? = some ']') :
    BuilderInv cs (i + 1) ((ret.set j (some (.jumpZero i))).set i (some (.jumpNonzero j)))
      (mapInsert (mapInsert m j (.jumpZero i)) i (.jumpNonzero j)) := by
  obtain ⟨hlen, hA, hB⟩ := hinv
  have hilen : i < cs.length := lt_length_of_getElem_some cs i ']' hic
  refine ⟨by rw [List.length_set, List.length_set, hlen], ?_, ?_⟩
  · intro k hk
    rw [getD_set_ne _ _ _ _ (show k ≠ i from by omega),
      getD_set_ne _ _ _ _ (show k ≠ j from by omega)]
    unfold mapInsert
    rw [if_neg (show ¬(k = i) from by omega), if_neg (show ¬(k = j) from by omega)]
    exact hA k (by omega)
  · intro k hk ch2 hch2
    by_cases hki : k = i
    · rw [hki] at hch2 ⊢
      rw [hic] at hch2
      injection hch2 with hch3
      rw [← hch3]
      rw [getD_set_self _ _ _ (by rw [List.length_set, hlen]; exact hilen)]
      constructor
      · rw [if_pos (Or.inr rfl)]
        unfold mapInsert
        rw [if_pos rfl]
      · intro hcon
        exact absurd (Or.inr rfl) hcon
    · by_cases hkj : k = j
      · rw [hkj] at hch2 ⊢
        rw [hjc] at hch2
        injection hch2 with hch3
        rw [← hch3]
        rw [getD_set_ne _ _ _ _ (show j ≠ i from by omega),
          getD_set_self _ _ _ (by rw [hlen]; omega)]
        constructor
        · rw [if_pos (Or.inl rfl)]
          unfold mapInsert
          rw [if_neg (show ¬(j = i) from by omega), if_pos rfl]
        · intro hcon
          exact absurd (Or.inl rfl) hcon
      · rw [getD_set_ne _ _ _ _ hki, getD_set_ne _ _ _ _ hkj]
        unfold mapInsert
        rw [if_neg hki, if_neg hkj]
        exact hB k (by omega) ch2 hch2

theorem parse_fly_correspond (cs : List Char) :
    ∀ rest i ret m stk,
      rest = cs.drop i →
      (∀ p, p ∈ stk → p < i ∧ cs[p]? = some '[') →
      BuilderInv cs i ret m →
      ∀ m2 stk2, build_bracket_map rest i m stk = .ok (m2, stk2) →
      ∃ ret2, parse_code rest i ret stk = .ok (ret2, stk2) ∧
        BuilderInv cs (i + rest.length) ret2 m2 := by
  intro rest
  induction rest with
  | nil =>
    intro i ret m stk hdrop hstk hinv m2 stk2 hok
    rw [build_bracket_map_nil] at hok
    injection hok with h3
    rw [Prod.mk.injEq] at h3
    obtain ⟨h4, h5⟩ := h3
    refine ⟨ret, ?_, ?_⟩
    · rw [parse_code_nil, h5]
    · rw [← h4]
      simpa using hinv
  | cons ch rest2 ih =>
    intro i ret m stk hdrop hstk hinv m2 stk2 hok
    obtain ⟨hch, hdrop2⟩ := drop_cons_facts cs i ch rest2 hdrop
    rw [build_bracket_map_cons] at hok
    rw [parse_code_cons]
    have harith : i + (ch :: rest2).length = (i + 1) + rest2.length := by
      rw [List.length_cons]
      omega
    rw [harith]
    by_cases h1 : ch = '['
    · rw [if_pos h1] at hok ⊢
      have hstk2 : ∀ p, p ∈ (i :: stk) → p < i + 1 ∧ cs[p]? = some '[' := by
        intro p hp
        rcases List.mem_cons.mp hp with hp1 | hp2
        · rw [hp1]
          exact ⟨Nat.lt_succ_self _, by rw [← h1]; exact hch⟩
        · exact ⟨Nat.lt_succ_of_lt (hstk p hp2).1, (hstk p hp2).2⟩
      exact ih (i + 1) ret m (i :: stk) hdrop2 hstk2
        (builderInv_push cs i ret m ⟨hinv.1, hinv.2.1, hinv.2.2⟩ (by rw [← h1]; exact hch))
        m2 stk2 hok
    · rw [if_neg h1] at hok ⊢
      by_cases h2 : ch = ']'
      · rw [if_pos h2] at hok ⊢
        cases stk with
        | nil => exact Except.noConfusion hok
        | cons j stk3 =>
          obtain ⟨hji, hjc⟩ := hstk j (List.mem_cons_self j stk3)
          have hstk3 : ∀ p, p ∈ stk3 → p < i + 1 ∧ cs[p]? = some '[' := by
            intro p hp
            exact ⟨Nat.lt_succ_of_lt (hstk p (List.mem_cons_of_mem j hp)).1,
              (hstk p (List.mem_cons_of_mem j hp)).2⟩
          exact ih (i + 1) _ _ stk3 hdrop2 hstk3
            (builderInv_set_brackets cs i j ret m hinv hji hjc (by rw [← h2]; exact hch))
            m2 stk2 hok
      · rw [if_neg h2] at hok ⊢
        cases hv : instrOfChar ch with
        | some v =>
          exact ih (i + 1) _ m stk hdrop2
            (fun p hp => ⟨Nat.lt_succ_of_lt (hstk p hp).1, (hstk p hp).2⟩)
            (builderInv_set_simple cs i ret m hinv ch hch v hv h1 h2) m2 stk2 hok
        | none =>
          exact ih (i + 1) ret m stk hdrop2
            (fun p hp => ⟨Nat.lt_succ_of_lt (hstk p hp).1, (hstk p hp).2⟩)
            (builderInv_other cs i ret m hinv ch hch hv h1 h2) m2 stk2 hok

theorem builderInv_fetch_eq (cs : List Char) (ret : List (Option Instr))
    (m : Nat → Option Instr) (hinv : BuilderInv cs cs.length ret m) :
    ∀ k, parseFetch ret k = flyweightFetch cs m k := by
  obtain ⟨hlen, hA, hB⟩ := hinv
  intro k
  by_cases hk : k < cs.length
  · obtain ⟨ch, hch⟩ : ∃ ch, cs[k]? = some ch := by
      rw [List.getElem?_eq_getElem hk]
      exact ⟨cs[k], rfl⟩
    obtain ⟨hBk1, hBk2⟩ := hB k hk ch hch
    unfold parseFetch flyweightFetch
    rw [hch, hBk1]
    by_cases h1 : ch = '+'
    · rw [h1]; rfl
    · by_cases h2 : ch = '-'
      · rw [h2]; rfl
      · by_cases h3 : ch = '>'
        · rw [h3]; rfl
        · by_cases h4 : ch = '<'
          · rw [h4]; rfl
          · by_cases h5 : ch = '.'
            · rw [h5]; rfl
            · by_cases h6 : ch = ','
              · rw [h6]; rfl
              · by_cases h7 : ch = '['
                · rw [h7]; rfl
                · by_cases h8 : ch = ']'
                  · rw [h8]; rfl
                  · simp [instrOfChar, h1, h2, h3, h4, h5, h6, h7, h8]
  · unfold parseFetch flyweightFetch
    rw [List.getElem?_eq_none (by omega)]
    exact List.getD_eq_default _ _ (by rw [hlen]; omega)

theorem interpret_congr (f g : Nat → Option Instr) (hfg : ∀ k, f k = g k) (size : Nat) :
    ∀ fuel s, interpret f size fuel s = interpret g size fuel s := by
  intro fuel
  induction fuel with
  | zero => intro s; rfl
  | succ n ih =>
    intro s
    rw [interpret, interpret]
    by_cases hlt : s.program_counter < size
    · rw [if_pos hlt, if_pos hlt]
      have hstep : step f s = step g s := by
        unfold step
        rw [hfg]
      rw [hstep]
      cases step g s with
      | none => rfl
      | some u =>
        rw [Option.some_bind, Option.some_bind]
        exact ih u
    · rw [if_neg hlt, if_neg hlt]

/-- Claim C10: for every balanced-bracket source string both program
builders succeed, the instruction `parse_code` places at each index equals
the instruction `FlyweightCode::operator[]` returns at that index, and
interpreting with either program produces identical runs from every state. -/
theorem parse_flyweight_equivalent (cs : List Char) (h : Balanced cs) :
    ∃ ret m, parseBuild cs = .ok (ret, []) ∧ flyweightBuild cs = .ok (m, []) ∧
      (∀ k, parseFetch ret k = flyweightFetch cs m k) ∧
      (∀ fuel s, interpret (parseFetch ret) cs.length fuel s =
        interpret (flyweightFetch cs m) cs.length fuel s) := by
  obtain ⟨m2, stk2, hok, hlen0⟩ := build_bracket_map_total cs 0 (fun _ => none) [] 0 h
  have hstk : stk2 = [] := List.eq_nil_of_length_eq_zero hlen0
  rw [hstk] at hok
  have hinv0 : BuilderInv cs 0 (List.replicate cs.length none) (fun _ => none) := by
    refine ⟨List.length_replicate _ _, ?_, ?_⟩
    · intro k _
      exact ⟨getD_replicate_none _ _, rfl⟩
    · intro k hk ch hch
      exact absurd hk (Nat.not_lt_zero k)
  obtain ⟨ret2, hpok, hinv⟩ := parse_fly_correspond cs cs 0
    (List.replicate cs.length none) (fun _ => none) []
    (List.drop_zero cs).symm (fun p hp => absurd hp (List.not_mem_nil p)) hinv0 m2 [] hok
  have hfetch := builderInv_fetch_eq cs ret2 m2 (by simpa using hinv)
  exact ⟨ret2, m2, hpok, hok, hfetch,
    fun fuel s => interpret_congr _ _ hfetch cs.length fuel s⟩

theorem parse_flyweight_equivalent_witness :
    ∃ ret m, parseBuild demoProg2 = .ok (ret, []) ∧ flyweightBuild demoProg2 = .ok (m, []) ∧
      (∀ k, parseFetch ret k = flyweightFetch demoProg2 m k) ∧
      (∀ fuel s, interpret (parseFetch ret) demoProg2.length fuel s =
        interpret (flyweightFetch demoProg2 m) demoProg2.length fuel s) :=
  parse_flyweight_equivalent demoProg2 (by decide)

theorem balanced_build_correct_witness :
    ∃ m, flyweightBuild demoProg = .ok (m, []) ∧
      (∀ i, demoProg[i]? = some '[' →
        ∃ j, IsMatch demoProg i j ∧ flyweightFetch demoProg m i = some (.jumpZero j)) ∧
      (∀ j, demoProg[j]? = some ']' →
        ∃ i, IsMatch demoProg i j ∧ flyweightFetch demoProg m j = some (.jumpNonzero i)) :=
  balanced_build_correct demoProg (by decide)

end BF
